import Mathlib

set_option maxHeartbeats 1000000

/-!
Verification development for the traffic knowledge-graph assistant.

The definitions below are a shallow embedding of the Python sources:
  * `src/kg/kg_utils.py`   — `TrafficKnowledgeGraph` and its query methods,
  * `src/llm/client.py`    — `call_llm`,
  * `src/rag/retriever.py` — `RAGRetriever.retrieve`.

Python dictionaries are modelled as association lists with
insertion-order-preserving update (`dinsert`) and first-match lookup
(`dget`), matching CPython dict semantics.  Operations that can raise
`KeyError` are modelled in `Except String`, the error value being the
missing key.  The NetworkX calls used by the source (`G.neighbors`,
`nx.shortest_path` with its default unweighted breadth-first search) are
modelled by executable functions over the stored edge list; the
shortest-path model is proved below to return a path of minimal hop
length, which is the contract the source relies on.
-/

/-- A node record of the graph JSON: required `id`, optional `label`
(`node.get("label", node_id)` in the source) and optional `type`. -/
structure NodeRec where
  id : String
  label : Option String
  type : Option String
deriving DecidableEq

/-- An edge record of the graph JSON: required `from`/`to` (named `src`/`dst`
after the loop variables in `_load_graph`), optional `relation`. -/
structure EdgeRec where
  src : String
  dst : String
  relation : Option String
deriving DecidableEq

/-- The parsed graph JSON: `data.get("nodes", [])` and `data.get("edges", [])`. -/
structure GraphDesc where
  nodes : List NodeRec
  edges : List EdgeRec
deriving DecidableEq

instance {ε α : Type} [DecidableEq ε] [DecidableEq α] : DecidableEq (Except ε α) := by
  intro a b
  cases a with
  | error e =>
    cases b with
    | error f =>
      exact if h : e = f then Decidable.isTrue (by rw [h])
        else Decidable.isFalse (by intro hh; cases hh; exact h rfl)
    | ok y => exact Decidable.isFalse (by intro hh; cases hh)
  | ok x =>
    cases b with
    | error f => exact Decidable.isFalse (by intro hh; cases hh)
    | ok y =>
      exact if h : x = y then Decidable.isTrue (by rw [h])
        else Decidable.isFalse (by intro hh; cases hh; exact h rfl)

/-- Python dict lookup `m.get(k)`: first entry with the given key. -/
def dget {α : Type} (m : List (String × α)) (k : String) : Option α :=
  (m.find? (fun p => p.1 == k)).map (fun p => p.2)

/-- Python dict assignment `m[k] = v`: overwrite in place if the key is
present (keeping its position), otherwise append. -/
def dinsert {α : Type} (m : List (String × α)) (k : String) (v : α) : List (String × α) :=
  if (m.find? (fun p => p.1 == k)).isSome then
    m.map (fun p => if p.1 == k then (k, v) else p)
  else m ++ [(k, v)]

/-- The state of a `TrafficKnowledgeGraph` object: the NetworkX graph
(`gNodes` in insertion order, the stored `type` attributes, the edge list)
together with the two label maps built by `_load_graph`. -/
structure KGState where
  gNodes : List String
  gTypes : List (String × String)
  gEdges : List (String × String)
  label_to_id : List (String × String)
  id_to_label : List (String × String)
deriving DecidableEq

/-- `node.get("label", node_id)` from `_load_graph`. -/
def nodeLabel (n : NodeRec) : String := n.label.getD n.id

/-- One iteration of the node loop of `_load_graph`:
`G.add_node(node_id, **node)` plus the two map assignments.  NetworkX
`add_node` keeps the position of an already-present node and updates its
attribute dict (absent keys untouched). -/
def addNode (s : KGState) (n : NodeRec) : KGState :=
  { s with
    gNodes := if n.id ∈ s.gNodes then s.gNodes else s.gNodes ++ [n.id]
    gTypes := match n.type with
      | some t => dinsert s.gTypes n.id t
      | none => s.gTypes
    label_to_id := dinsert s.label_to_id (nodeLabel n) n.id
    id_to_label := dinsert s.id_to_label n.id (nodeLabel n) }

/-- One iteration of the edge loop of `_load_graph`:
`G.add_edge(src, dst, relation=rel)`.  NetworkX silently creates missing
endpoint nodes (with no attributes). -/
def addEdge (s : KGState) (e : EdgeRec) : KGState :=
  let g1 := if e.src ∈ s.gNodes then s.gNodes else s.gNodes ++ [e.src]
  let g2 := if e.dst ∈ g1 then g1 else g1 ++ [e.dst]
  { s with gNodes := g2, gEdges := s.gEdges ++ [(e.src, e.dst)] }

/-- The state of a freshly constructed, not yet loaded object. -/
def emptyKG : KGState := ⟨[], [], [], [], []⟩

/-- `TrafficKnowledgeGraph._load_graph`: fold the node loop, then the edge
loop, over the empty state. -/
def load_graph (d : GraphDesc) : KGState :=
  d.edges.foldl addEdge (d.nodes.foldl addNode emptyKG)

/-- `list(self.G.neighbors(node_id))` for the undirected NetworkX graph:
all opposite endpoints of stored edges touching `v`, deduplicated (NetworkX
adjacency is a dict, so each neighbor appears once). -/
def adjacency (E : List (String × String)) (v : String) : List String :=
  (E.filterMap (fun e =>
    if e.1 = v then some e.2 else if e.2 = v then some e.1 else none)).dedup

/-- Direct dict indexing `self.id_to_label[i]`, raising `KeyError` (the
missing key) when absent. -/
def lookupLabel (s : KGState) (i : String) : Except String String :=
  match dget s.id_to_label i with
  | some l => Except.ok l
  | none => Except.error i

/-- The list comprehension `[self.id_to_label[n] for n in ids]`: direct
dict indexing, raising `KeyError` at the first id with no label entry. -/
def mapLabels (s : KGState) : List String → Except String (List String)
  | [] => Except.ok []
  | i :: rest =>
    match dget s.id_to_label i with
    | some l => (mapLabels s rest).map (fun L => l :: L)
    | none => Except.error i

/-- `TrafficKnowledgeGraph.get_neighbors`. -/
def get_neighbors (s : KGState) (node_label : String) : Except String (List String) :=
  match dget s.label_to_id node_label with
  | none => Except.ok []
  | some node_id => mapLabels s (adjacency s.gEdges node_id)

/-! ### Model of `nx.shortest_path` (unweighted breadth-first search)

`reach E src n` is the set of vertices within `n` hops of `src`;
`layerFrom` finds the least layer containing the target (within fuel one
more than the vertex count, enough by the saturation lemma below);
`pathDown` reconstructs a path of that exact length. -/

/-- One breadth-first expansion step. -/
def bfsStep (E : List (String × String)) (S : Finset String) : Finset String :=
  S ∪ S.biUnion (fun v => (adjacency E v).toFinset)

/-- Vertices within `n` hops of `src`. -/
def reach (E : List (String × String)) (src : String) : Nat → Finset String
  | 0 => {src}
  | n + 1 => bfsStep E (reach E src n)

/-- Least `d` with `k ≤ d < k + fuel` such that `tgt ∈ reach E src d`. -/
def layerFrom (E : List (String × String)) (src tgt : String) : Nat → Nat → Option Nat
  | 0, _ => none
  | fuel + 1, k => if tgt ∈ reach E src k then some k else layerFrom E src tgt fuel (k + 1)

/-- Reconstruct a path of length `n + 1` ending at a vertex of exact
breadth-first layer `n`, by repeatedly stepping to a neighbor one layer
closer to the source. -/
def pathDown (E : List (String × String)) (src : String) : Nat → String → List String
  | 0, t => [t]
  | n + 1, t =>
    match (adjacency E t).find? (fun u => decide (u ∈ reach E src n)) with
    | some u => pathDown E src n u ++ [t]
    | none => [t]

/-- Model of `nx.shortest_path(G, src, tgt)` for the unweighted undirected
graph: `some` shortest path when the target is reachable, `none` when the
search raises `NetworkXNoPath`. -/
def nx_shortest_path (s : KGState) (src tgt : String) : Option (List String) :=
  (layerFrom s.gEdges src tgt (s.gNodes.length + 1) 0).map
    (fun d => pathDown s.gEdges src d tgt)

/-- `TrafficKnowledgeGraph.find_path`. -/
def find_path (s : KGState) (source_label target_label : String) : Except String (List String) :=
  match dget s.label_to_id source_label, dget s.label_to_id target_label with
  | some src_id, some tgt_id =>
    match nx_shortest_path s src_id tgt_id with
    | some path_ids => mapLabels s path_ids
    | none => Except.ok []
  | _, _ => Except.ok []

/-- `TrafficKnowledgeGraph.get_node_type`: `self.G.nodes[node_id]` raises
`KeyError` for an id absent from the graph, then `data.get("type")`. -/
def get_node_type (s : KGState) (node_label : String) : Except String (Option String) :=
  match dget s.label_to_id node_label with
  | none => Except.ok none
  | some node_id =>
    if node_id ∈ s.gNodes then Except.ok (dget s.gTypes node_id)
    else Except.error node_id

/-- `TrafficKnowledgeGraph.get_nodes_by_type`: linear scan over
`G.nodes(data=True)` with the `self.id_to_label.get(node_id, node_id)`
fallback. -/
def get_nodes_by_type (s : KGState) (node_type : String) : List String :=
  (s.gNodes.filter (fun i => decide (dget s.gTypes i = some node_type))).map
    (fun i => (dget s.id_to_label i).getD i)

/-- The candidate loop of `find_nearest_node_of_type`: keep the first
strictly shorter shortest path. -/
def nearestFold (s : KGState) (src_id : String)
    (acc : Option (String × List String)) (tgt_id : String) :
    Option (String × List String) :=
  match nx_shortest_path s src_id tgt_id with
  | none => acc
  | some path_ids =>
    match acc with
    | none => some (tgt_id, path_ids)
    | some best =>
      if path_ids.length < best.2.length then some (tgt_id, path_ids) else acc

/-- `TrafficKnowledgeGraph.find_nearest_node_of_type`. -/
def find_nearest_node_of_type (s : KGState) (source_label target_type : String) :
    Except String (Option (String × List String)) :=
  match dget s.label_to_id source_label with
  | none => Except.ok none
  | some src_id =>
    let target_ids := s.gNodes.filter (fun i => decide (dget s.gTypes i = some target_type))
    if target_ids.isEmpty then Except.ok none
    else
      match target_ids.foldl (nearestFold s src_id) none with
      | none => Except.ok none
      | some best => do
        let target_label ← lookupLabel s best.1
        let path_labels ← mapLabels s best.2
        Except.ok (some (target_label, path_labels))

/-! ### Walks and distances (specification side)

These define, independently of the search procedure, what "reachable" and
"hop-distance" mean on the stored undirected edge list. -/

/-- `WalkN E u n v`: there is a walk of `n` edges from `u` to `v`. -/
inductive WalkN (E : List (String × String)) (u : String) : Nat → String → Prop
  | zero : WalkN E u 0 u
  | succ {n : Nat} {v w : String} :
      WalkN E u n v → w ∈ adjacency E v → WalkN E u (n + 1) w

/-- A walk from `u` to `v` presented as its vertex list. -/
def IsWalk (E : List (String × String)) (u v : String) (p : List String) : Prop :=
  p.head? = some u ∧ p.getLast? = some v ∧
    List.Chain' (fun a b => b ∈ adjacency E a) p

/-- `v` can be reached from `u` along stored edges. -/
def Reachable (E : List (String × String)) (u v : String) : Prop :=
  ∃ p, IsWalk E u v p

/-- `d` is the true unweighted hop-distance from `u` to `v`: some walk has
`d` edges and no walk has fewer. -/
def HopDistance (E : List (String × String)) (u v : String) (d : Nat) : Prop :=
  (∃ p, IsWalk E u v p ∧ p.length = d + 1) ∧
    ∀ p, IsWalk E u v p → d + 1 ≤ p.length

/-- All stored edge endpoints are nodes of the graph.  NetworkX `add_edge`
inserts missing endpoints, so every loaded state satisfies this. -/
def ClosedEdges (s : KGState) : Prop :=
  ∀ p ∈ s.gEdges, p.1 ∈ s.gNodes ∧ p.2 ∈ s.gNodes

/-- A well-formed graph description (spec sections 3 and 6): node ids are
unique, labels (after defaulting to the id) are unique, and every edge
endpoint references an existing node. -/
def WellFormed (d : GraphDesc) : Prop :=
  (d.nodes.map NodeRec.id).Nodup ∧ (d.nodes.map nodeLabel).Nodup ∧
    ∀ e ∈ d.edges, e.src ∈ d.nodes.map NodeRec.id ∧ e.dst ∈ d.nodes.map NodeRec.id

instance (d : GraphDesc) : Decidable (WellFormed d) :=
  inferInstanceAs (Decidable ((d.nodes.map NodeRec.id).Nodup ∧
    (d.nodes.map nodeLabel).Nodup ∧
    ∀ e ∈ d.edges, e.src ∈ d.nodes.map NodeRec.id ∧ e.dst ∈ d.nodes.map NodeRec.id))

/-! ### Shallow embedding of src/llm/client.py -/

/-- Outcome of `model.generate_content(prompt)` together with the
`response.text` access: either some exception is raised anywhere inside
the `try` block (message recorded), or the call returns a response whose
usable text is `none` (no `text` attribute, or `None`) or `some t`
(a `text` attribute equal to `t`, the empty string being falsy). -/
inductive GenOutcome where
  | raises (msg : String)
  | returns (text : Option String)
deriving DecidableEq

/-- Python `str.strip()`: drop leading and trailing whitespace.  Defined
over the character list so that it evaluates by kernel reduction. -/
def pyStrip (s : String) : String :=
  String.mk (((s.data.dropWhile Char.isWhitespace).reverse.dropWhile
    Char.isWhitespace).reverse)

def DEFAULT_MODEL : String := "gemini-2.5-flash"

/-- `call_llm` from src/llm/client.py.  `behavior` models the hosted
provider: what the guarded block observes for the given prompt, system
instruction and model name. -/
def call_llm (behavior : String → Option String → String → GenOutcome)
    (prompt : String) (system_instruction : Option String := none)
    (model_name : String := DEFAULT_MODEL) : String :=
  match behavior prompt system_instruction model_name with
  | GenOutcome.raises e => "[LLM ERROR] " ++ e
  | GenOutcome.returns none => "[LLM returned no text response]"
  | GenOutcome.returns (some t) =>
    if t = "" then "[LLM returned no text response]" else pyStrip t

/-! ### Shallow embedding of src/rag/retriever.py -/

/-- A document stored in the ChromaDB collection: text, metadata and the
stored embedding vector.  Components are rationals; the ordering facts
proved below do not depend on the numeric representation. -/
structure StoredDoc where
  text : String
  metadata : List (String × String)
  embedding : List Rat
deriving DecidableEq

/-- Squared Euclidean distance, the dissimilarity score of the index
(lower = closer). -/
def sqdist (u v : List Rat) : Rat :=
  ((u.zip v).map (fun p => (p.1 - p.2) * (p.1 - p.2))).sum

/-- Comparison of stored documents by distance to a query embedding. -/
def docLe (qe : List Rat) (a b : StoredDoc) : Prop :=
  sqdist qe a.embedding ≤ sqdist qe b.embedding

instance (qe : List Rat) : DecidableRel (docLe qe) := fun a b =>
  inferInstanceAs (Decidable (sqdist qe a.embedding ≤ sqdist qe b.embedding))

instance (qe : List Rat) : IsTotal StoredDoc (docLe qe) :=
  ⟨fun a b => le_total (sqdist qe a.embedding) (sqdist qe b.embedding)⟩

instance (qe : List Rat) : IsTrans StoredDoc (docLe qe) :=
  ⟨fun _ _ _ hab hbc => le_trans hab hbc⟩

/-- A `RAGRetriever` object: the bound sentence-embedding model and the
contents of the pre-populated persistent collection. -/
structure RAGRetriever where
  embedder : String → List Rat
  collection : List StoredDoc

/-- `self.collection.query(query_embeddings=[query_emb], n_results=k)`:
the `k` stored documents nearest to the query embedding, closest first,
as aligned `documents` / `metadatas` / `distances` lists. -/
def collection_query (docs : List StoredDoc) (qe : List Rat) (k : Nat) :
    List String × List (List (String × String)) × List Rat :=
  let sorted := (docs.insertionSort (docLe qe)).take k
  (sorted.map StoredDoc.text, sorted.map StoredDoc.metadata,
    sorted.map (fun doc => sqdist qe doc.embedding))

/-- One formatted hit of `retrieve`: `{ 'text', 'metadata', 'score' }`. -/
structure QueryHit where
  text : String
  metadata : List (String × String)
  score : Rat
deriving DecidableEq

/-- `RAGRetriever.retrieve`.  The second component instruments how many
`_embed_query` calls were made: none on the empty-query branch, exactly
one otherwise. -/
def retrieve (r : RAGRetriever) (query : String) (k : Nat) :
    List QueryHit × Nat :=
  if query = "" ∨ pyStrip query = "" then ([], 0)
  else
    let query_emb := r.embedder query
    let results := collection_query r.collection query_emb k
    let formatted := ((results.1.zip results.2.1).zip results.2.2).map
      (fun p => ⟨p.1.1, p.1.2, p.2⟩)
    (formatted, 1)

/-! ### Concrete fixtures used by witness theorems -/

/-- A small well-formed graph: an intersection connected to two further
nodes, two of the three nodes being hospitals. -/
def gdMain : GraphDesc :=
  ⟨[⟨"A", some "LA", some "intersection"⟩, ⟨"B", some "LB", some "hospital"⟩,
    ⟨"C", some "LC", some "hospital"⟩],
   [⟨"A", "B", none⟩, ⟨"B", "C", none⟩]⟩

/-- A graph description with a dangling edge endpoint: node `X` appears
only in an edge record. -/
def gdDangling : GraphDesc :=
  ⟨[⟨"A", some "LA", none⟩], [⟨"A", "X", none⟩]⟩

/-- A graph state with a typed node that has no `id_to_label` entry,
adjacent to a labelled node. -/
def stateOrphan : KGState :=
  ⟨["A", "X"], [("X", "hospital")], [("A", "X")], [("LA", "A")], [("A", "LA")]⟩

/-- A provider behavior fixture: responds with padded text. -/
def behaviorOk : String → Option String → String → GenOutcome :=
  fun _ _ _ => GenOutcome.returns (some "  hello  ")

/-- A retriever fixture over a two-document collection with a constant
embedder. -/
def ragEx : RAGRetriever :=
  ⟨fun _ => [0], [⟨"docA", [("k", "1")], [2]⟩, ⟨"docB", [("k", "2")], [1]⟩]⟩

/-! ### Dictionary lemmas -/

theorem dget_eq_none_iff {α : Type} {m : List (String × α)} {k : String} :
    dget m k = none ↔ ∀ p ∈ m, p.1 ≠ k := by
  simp [dget, List.find?_eq_none]

theorem mem_of_dget_eq_some {α : Type} {m : List (String × α)} {k : String} {v : α}
    (h : dget m k = some v) : (k, v) ∈ m := by
  unfold dget at h
  cases hf : m.find? (fun p => p.1 == k) with
  | none => rw [hf] at h; simp at h
  | some p =>
    rw [hf] at h
    simp at h
    have hm := List.mem_of_find?_eq_some hf
    have hp := List.find?_some hf
    simp at hp
    have hpkv : p = (k, v) := by
      cases p
      simp_all
    rw [hpkv] at hm
    exact hm

theorem dget_eq_some_iff {α : Type} {m : List (String × α)}
    (h : (m.map Prod.fst).Nodup) {k : String} {v : α} :
    dget m k = some v ↔ (k, v) ∈ m := by
  constructor
  · exact mem_of_dget_eq_some
  · intro hmem
    induction m with
    | nil => simp at hmem
    | cons a m ih =>
      rw [List.map_cons, List.nodup_cons] at h
      rcases List.mem_cons.mp hmem with heq | hmem2
      · subst heq
        have hstep : List.find? (fun p => p.1 == k) ((k, v) :: m) = some (k, v) := by
          rw [List.find?_cons_of_pos]
          simp
        unfold dget
        rw [hstep]
        rfl
      · have hk : k ∈ m.map Prod.fst := List.mem_map.mpr ⟨(k, v), hmem2, rfl⟩
        have hne : ¬ ((fun p : String × α => p.1 == k) a) = true := by
          simp
          intro hak
          exact h.1 (hak ▸ hk)
        have hstep : List.find? (fun p => p.1 == k) (a :: m) =
            List.find? (fun p => p.1 == k) m := by
          rw [List.find?_cons_of_neg]
          exact hne
        unfold dget
        rw [hstep]
        exact ih h.2 hmem2

theorem dinsert_of_fresh {α : Type} {m : List (String × α)} {k : String} {v : α}
    (h : ∀ p ∈ m, p.1 ≠ k) : dinsert m k v = m ++ [(k, v)] := by
  unfold dinsert
  rw [List.find?_eq_none.mpr (fun p hp => by simpa using h p hp)]
  simp

/-! ### Adjacency lemmas -/

theorem mem_adjacency {E : List (String × String)} {u v : String} :
    u ∈ adjacency E v ↔ ∃ e ∈ E, (e.1 = v ∧ e.2 = u) ∨ (e.1 = u ∧ e.2 = v) := by
  unfold adjacency
  rw [List.mem_dedup, List.mem_filterMap]
  constructor
  · rintro ⟨e, he, hog⟩
    by_cases h1 : e.1 = v
    · simp [h1] at hog
      exact ⟨e, he, Or.inl ⟨h1, hog⟩⟩
    · by_cases h2 : e.2 = v
      · simp [h1, h2] at hog
        exact ⟨e, he, Or.inr ⟨hog, h2⟩⟩
      · simp [h1, h2] at hog
  · rintro ⟨e, he, hcase⟩
    refine ⟨e, he, ?_⟩
    rcases hcase with ⟨h1, h2⟩ | ⟨h1, h2⟩
    · simp [h1, h2]
    · by_cases hv : e.1 = v
      · simp [hv, h2]
        rw [← h1, hv]
      · have hgoal : (if e.1 = v then some e.2 else if e.2 = v then some e.1 else none)
            = some e.1 := by simp [hv, h2]
        rw [hgoal, h1]

theorem adjacency_comm {E : List (String × String)} {u v : String} :
    u ∈ adjacency E v ↔ v ∈ adjacency E u := by
  rw [mem_adjacency, mem_adjacency]
  constructor
  · rintro ⟨e, he, hc⟩
    exact ⟨e, he, hc.symm⟩
  · rintro ⟨e, he, hc⟩
    exact ⟨e, he, hc.symm⟩

theorem adjacency_mem_nodes {s : KGState} (hC : ClosedEdges s) {u v : String}
    (h : u ∈ adjacency s.gEdges v) : u ∈ s.gNodes := by
  rcases mem_adjacency.mp h with ⟨e, he, hc⟩
  rcases hC e he with ⟨h1, h2⟩
  rcases hc with ⟨_, hu⟩ | ⟨hu, _⟩
  · rw [← hu]; exact h2
  · rw [← hu]; exact h1

/-! ### Breadth-first layers -/

theorem mem_bfsStep {E : List (String × String)} {S : Finset String} {x : String} :
    x ∈ bfsStep E S ↔ x ∈ S ∨ ∃ v ∈ S, x ∈ adjacency E v := by
  unfold bfsStep
  simp [Finset.mem_union, Finset.mem_biUnion, List.mem_toFinset]

theorem src_mem_reach (E : List (String × String)) (src : String) :
    ∀ n, src ∈ reach E src n := by
  intro n
  induction n with
  | zero => simp [reach]
  | succ n ih =>
    rw [reach, mem_bfsStep]
    exact Or.inl ih

theorem reach_subset_succ (E : List (String × String)) (src : String) (n : Nat) :
    reach E src n ⊆ reach E src (n + 1) := by
  intro x hx
  rw [reach, mem_bfsStep]
  exact Or.inl hx

theorem reach_mono {E : List (String × String)} {src : String} {m n : Nat}
    (h : m ≤ n) : reach E src m ⊆ reach E src n := by
  induction h with
  | refl => exact fun x hx => hx
  | step h2 ih => exact fun x hx => reach_subset_succ E src _ (ih hx)

theorem walkN_mem_reach {E : List (String × String)} {u : String} {n : Nat} {v : String}
    (h : WalkN E u n v) : v ∈ reach E u n := by
  induction h with
  | zero => simp [reach]
  | succ hw hadj ih =>
    rw [reach, mem_bfsStep]
    exact Or.inr ⟨_, ih, hadj⟩

theorem mem_reach_walkN {E : List (String × String)} {u : String} :
    ∀ {n : Nat} {v : String}, v ∈ reach E u n → ∃ m, m ≤ n ∧ WalkN E u m v := by
  intro n
  induction n with
  | zero =>
    intro v hv
    simp [reach] at hv
    rw [hv]
    exact ⟨0, Nat.le_refl 0, WalkN.zero⟩
  | succ n ih =>
    intro v hv
    rw [reach, mem_bfsStep] at hv
    rcases hv with hv | ⟨w, hw, hadj⟩
    · rcases ih hv with ⟨m, hm, hwalk⟩
      exact ⟨m, Nat.le_succ_of_le hm, hwalk⟩
    · rcases ih hw with ⟨m, hm, hwalk⟩
      exact ⟨m + 1, Nat.succ_le_succ hm, WalkN.succ hwalk hadj⟩

theorem reach_subset_verts {s : KGState} {src : String}
    (hs : src ∈ s.gNodes) (hC : ClosedEdges s) :
    ∀ n, reach s.gEdges src n ⊆ s.gNodes.toFinset := by
  intro n
  induction n with
  | zero =>
    intro x hx
    simp [reach] at hx
    rw [hx]
    exact List.mem_toFinset.mpr hs
  | succ n ih =>
    intro x hx
    rw [reach, mem_bfsStep] at hx
    rcases hx with hx | ⟨v, _, hadj⟩
    · exact ih hx
    · exact List.mem_toFinset.mpr (adjacency_mem_nodes hC hadj)

/-! ### Saturation of the layer sequence -/

theorem reach_stab {E : List (String × String)} {src : String} {k : Nat}
    (h : reach E src (k + 1) = reach E src k) :
    ∀ m, k ≤ m → reach E src m = reach E src k := by
  intro m hm
  induction m with
  | zero =>
    have hk : k = 0 := Nat.le_zero.mp hm
    rw [hk]
  | succ m ih =>
    rcases Nat.lt_or_ge k (m + 1) with hlt | hge
    · have hkm : k ≤ m := Nat.lt_succ_iff.mp hlt
      have hmk : reach E src m = reach E src k := ih hkm
      calc reach E src (m + 1) = bfsStep E (reach E src m) := rfl
        _ = bfsStep E (reach E src k) := by rw [hmk]
        _ = reach E src (k + 1) := rfl
        _ = reach E src k := h
    · have hkeq : k = m + 1 := Nat.le_antisymm hm hge
      rw [hkeq]

theorem reach_card_grow (E : List (String × String)) (src : String) :
    ∀ n, (∀ k, k < n → reach E src (k + 1) ≠ reach E src k) →
      n + 1 ≤ (reach E src n).card := by
  intro n
  induction n with
  | zero =>
    intro _
    simp [reach]
  | succ n ih =>
    intro h
    have h1 : n + 1 ≤ (reach E src n).card := ih (fun k hk => h k (Nat.lt_succ_of_lt hk))
    have hne : reach E src (n + 1) ≠ reach E src n := h n (Nat.lt_succ_self n)
    have hss : reach E src n ⊂ reach E src (n + 1) :=
      Finset.ssubset_iff_subset_ne.mpr ⟨reach_subset_succ E src n, fun he => hne he.symm⟩
    have h2 := Finset.card_lt_card hss
    omega

theorem exists_reach_stab {s : KGState} {src : String}
    (hs : src ∈ s.gNodes) (hC : ClosedEdges s) :
    ∃ k, k ≤ s.gNodes.length ∧
      reach s.gEdges src (k + 1) = reach s.gEdges src k := by
  by_contra hcon
  push_neg at hcon
  have hgrow := reach_card_grow s.gEdges src (s.gNodes.length + 1)
    (fun k hk => hcon k (Nat.lt_succ_iff.mp hk))
  have hsub := reach_subset_verts hs hC (s.gNodes.length + 1)
  have hcard : (reach s.gEdges src (s.gNodes.length + 1)).card ≤ s.gNodes.toFinset.card :=
    Finset.card_le_card hsub
  have htf := s.gNodes.toFinset_card_le
  omega

theorem reach_subset_full {s : KGState} {src : String}
    (hs : src ∈ s.gNodes) (hC : ClosedEdges s) (n : Nat) :
    reach s.gEdges src n ⊆ reach s.gEdges src s.gNodes.length := by
  rcases exists_reach_stab hs hC with ⟨k, hk, hstab⟩
  rcases Nat.le_total n s.gNodes.length with h | h
  · exact reach_mono h
  · have h1 : reach s.gEdges src n = reach s.gEdges src k :=
      reach_stab hstab n (le_trans hk h)
    have h2 : reach s.gEdges src s.gNodes.length = reach s.gEdges src k :=
      reach_stab hstab _ hk
    rw [h1, ← h2]

/-! ### Walks as lists versus counted walks -/

theorem isWalk_of_walkN {E : List (String × String)} {u : String} :
    ∀ {n : Nat} {v : String}, WalkN E u n v →
      ∃ p, IsWalk E u v p ∧ p.length = n + 1 := by
  intro n v h
  induction h with
  | zero => exact ⟨[u], ⟨rfl, rfl, List.chain'_singleton u⟩, rfl⟩
  | succ hw hadj ih =>
    rename_i n v w
    rcases ih with ⟨p, ⟨hh, hl, hc⟩, hlen⟩
    have hpne : p ≠ [] := by
      intro hnil
      rw [hnil] at hh
      simp at hh
    refine ⟨p ++ [w], ⟨?_, ?_, ?_⟩, ?_⟩
    · rw [List.head?_append, hh]
      rfl
    · exact List.getLast?_concat p
    · rw [List.chain'_append]
      refine ⟨hc, List.chain'_singleton w, ?_⟩
      intro x hx y hy
      simp at hy
      rw [hl] at hx
      simp at hx
      rw [← hx, ← hy]
      exact hadj
    · simp [hlen]

theorem walkN_of_isWalk {E : List (String × String)} {u : String} :
    ∀ p v, IsWalk E u v p → WalkN E u (p.length - 1) v := by
  intro p
  induction p using List.reverseRecOn with
  | nil =>
    intro v h
    exact absurd h.1 (by simp)
  | append_singleton q x ih =>
    intro v h
    obtain ⟨hh, hl, hc⟩ := h
    rw [List.getLast?_concat] at hl
    have hxv : x = v := by injection hl
    rw [List.chain'_append] at hc
    obtain ⟨hcq, _, hrel⟩ := hc
    by_cases hq : q = []
    · subst hq
      simp at hh
      rw [← hxv, ← hh]
      simpa using WalkN.zero
    · have hlast : q.getLast? = some (q.getLast hq) := List.getLast?_eq_getLast q hq
      have hwalkq : IsWalk E u (q.getLast hq) q := by
        refine ⟨?_, hlast, hcq⟩
        rw [List.head?_append] at hh
        cases hqh : q.head? with
        | none => exact absurd (List.head?_eq_none_iff.mp hqh) hq
        | some a =>
          simp [hqh] at hh ⊢
          exact hh
      have hw : WalkN E u (q.length - 1) (q.getLast hq) := ih (q.getLast hq) hwalkq
      have hadj : x ∈ adjacency E (q.getLast hq) := by
        apply hrel
        · exact hlast
        · rfl
      have hqpos : 1 ≤ q.length := by
        cases q with
        | nil => exact absurd rfl hq
        | cons a t => simp
      have := WalkN.succ hw hadj
      have hlen : q.length - 1 + 1 = (q ++ [x]).length - 1 := by
        simp
        omega
      rw [hlen] at this
      rw [← hxv]
      exact this

theorem reachable_iff_exists_walkN {E : List (String × String)} {u v : String} :
    Reachable E u v ↔ ∃ n, WalkN E u n v := by
  constructor
  · rintro ⟨p, hp⟩
    exact ⟨p.length - 1, walkN_of_isWalk p v hp⟩
  · rintro ⟨n, hn⟩
    rcases isWalk_of_walkN hn with ⟨p, hp, _⟩
    exact ⟨p, hp⟩

/-! ### Correctness of the path reconstruction and the layer search -/

theorem pathDown_spec {E : List (String × String)} {src : String} :
    ∀ n t, t ∈ reach E src n → (∀ m, m < n → t ∉ reach E src m) →
      IsWalk E src t (pathDown E src n t) ∧ (pathDown E src n t).length = n + 1 := by
  intro n
  induction n with
  | zero =>
    intro t ht _
    simp [reach] at ht
    subst ht
    exact ⟨⟨rfl, rfl, List.chain'_singleton _⟩, rfl⟩
  | succ n ih =>
    intro t ht hmin
    have htn : t ∉ reach E src n := hmin n (Nat.lt_succ_self n)
    rw [reach, mem_bfsStep] at ht
    rcases ht with ht | ⟨v, hv, hadj⟩
    · exact absurd ht htn
    have hvt : v ∈ adjacency E t := adjacency_comm.mp hadj
    cases hfq : (adjacency E t).find? (fun u => decide (u ∈ reach E src n)) with
    | none =>
      have hnone := List.find?_eq_none.mp hfq v hvt
      simp at hnone
      exact absurd hv hnone
    | some u =>
      have hu_mem : u ∈ adjacency E t := List.mem_of_find?_eq_some hfq
      have hu_reach : u ∈ reach E src n := by
        have h2 := List.find?_some hfq
        simpa using h2
      have hu_min : ∀ m, m < n → u ∉ reach E src m := by
        intro m hm hmem
        have htm : t ∈ reach E src (m + 1) := by
          rw [reach, mem_bfsStep]
          exact Or.inr ⟨u, hmem, adjacency_comm.mp hu_mem⟩
        exact hmin (m + 1) (Nat.succ_lt_succ hm) htm
      obtain ⟨⟨hh, hl, hc⟩, hlen⟩ := ih u hu_reach hu_min
      have hpd : pathDown E src (n + 1) t = pathDown E src n u ++ [t] := by
        rw [pathDown, hfq]
      rw [hpd]
      refine ⟨⟨?_, ?_, ?_⟩, ?_⟩
      · rw [List.head?_append, hh]
        rfl
      · exact List.getLast?_concat _
      · rw [List.chain'_append]
        refine ⟨hc, List.chain'_singleton t, ?_⟩
        intro x hx y hy
        simp at hy
        rw [hl] at hx
        simp at hx
        rw [← hx, ← hy]
        exact adjacency_comm.mp hu_mem
      · simp [hlen]

theorem layerFrom_some_spec {E : List (String × String)} {src tgt : String} :
    ∀ fuel k d, layerFrom E src tgt fuel k = some d →
      k ≤ d ∧ tgt ∈ reach E src d ∧ ∀ m, k ≤ m → m < d → tgt ∉ reach E src m := by
  intro fuel
  induction fuel with
  | zero =>
    intro k d h
    simp [layerFrom] at h
  | succ fuel ih =>
    intro k d h
    rw [layerFrom] at h
    by_cases hk : tgt ∈ reach E src k
    · rw [if_pos hk] at h
      injection h with h
      subst h
      exact ⟨Nat.le_refl k, hk, fun m h1 h2 => absurd (Nat.lt_of_le_of_lt h1 h2) (Nat.lt_irrefl k)⟩
    · rw [if_neg hk] at h
      rcases ih (k + 1) d h with ⟨h1, h2, h3⟩
      refine ⟨Nat.le_of_succ_le h1, h2, ?_⟩
      intro m hm1 hm2
      rcases Nat.eq_or_lt_of_le hm1 with heq | hlt
      · rw [← heq]
        exact hk
      · exact h3 m hlt hm2

theorem layerFrom_none_spec {E : List (String × String)} {src tgt : String} :
    ∀ fuel k, layerFrom E src tgt fuel k = none →
      ∀ m, k ≤ m → m < k + fuel → tgt ∉ reach E src m := by
  intro fuel
  induction fuel with
  | zero =>
    intro k _ m h1 h2
    omega
  | succ fuel ih =>
    intro k h m h1 h2
    rw [layerFrom] at h
    by_cases hk : tgt ∈ reach E src k
    · rw [if_pos hk] at h
      exact absurd h (by simp)
    · rw [if_neg hk] at h
      rcases Nat.eq_or_lt_of_le h1 with heq | hlt
      · rw [← heq]
        exact hk
      · exact ih (k + 1) h m hlt (by omega)

/-! ### Specification of the `nx.shortest_path` model -/

theorem nx_shortest_path_self (s : KGState) (src : String) :
    nx_shortest_path s src src = some [src] := by
  unfold nx_shortest_path
  have h : layerFrom s.gEdges src src (s.gNodes.length + 1) 0 = some 0 := by
    rw [layerFrom]
    rw [if_pos (by simp [reach])]
  rw [h]
  rfl

theorem nx_shortest_path_some {s : KGState} {src tgt : String} {p : List String}
    (h : nx_shortest_path s src tgt = some p) :
    IsWalk s.gEdges src tgt p ∧ HopDistance s.gEdges src tgt (p.length - 1) := by
  unfold nx_shortest_path at h
  cases hlf : layerFrom s.gEdges src tgt (s.gNodes.length + 1) 0 with
  | none => rw [hlf] at h; simp at h
  | some d =>
    rw [hlf] at h
    simp at h
    rcases layerFrom_some_spec _ _ _ hlf with ⟨_, hd, hmin⟩
    have hmind : ∀ m, m < d → tgt ∉ reach s.gEdges src m :=
      fun m hm => hmin m (Nat.zero_le m) hm
    rcases pathDown_spec d tgt hd hmind with ⟨hwalk, hlen⟩
    rw [← h]
    have hdlen : (pathDown s.gEdges src d tgt).length - 1 = d := by omega
    refine ⟨hwalk, ?_, ?_⟩
    · rw [hdlen]
      -- a walk of exactly d edges exists
      have hwd : WalkN s.gEdges src d tgt := by
        rcases mem_reach_walkN hd with ⟨m, hm, hwm⟩
        rcases Nat.eq_or_lt_of_le hm with heq | hlt
        · rw [← heq]; exact hwm
        · exact absurd (walkN_mem_reach hwm) (hmind m hlt)
      exact isWalk_of_walkN hwd
    · rw [hdlen]
      intro q hq
      have hwq := walkN_of_isWalk q tgt hq
      have hqr := walkN_mem_reach hwq
      have hqpos : 1 ≤ q.length := by
        rcases hq with ⟨hh, _, _⟩
        cases q with
        | nil => simp at hh
        | cons a l => simp
      by_contra hcon
      push_neg at hcon
      have : q.length - 1 < d := by omega
      exact hmind _ this hqr

theorem nx_shortest_path_none_iff {s : KGState} {src tgt : String}
    (hs : src ∈ s.gNodes) (hC : ClosedEdges s) :
    nx_shortest_path s src tgt = none ↔ ¬ Reachable s.gEdges src tgt := by
  constructor
  · intro h hreach
    unfold nx_shortest_path at h
    cases hlf : layerFrom s.gEdges src tgt (s.gNodes.length + 1) 0 with
    | some d => rw [hlf] at h; simp at h
    | none =>
      rcases reachable_iff_exists_walkN.mp hreach with ⟨n, hw⟩
      have h1 : tgt ∈ reach s.gEdges src n := walkN_mem_reach hw
      have h2 : tgt ∈ reach s.gEdges src s.gNodes.length :=
        reach_subset_full hs hC n h1
      exact layerFrom_none_spec _ _ hlf s.gNodes.length (Nat.zero_le _) (by omega) h2
  · intro hnr
    cases hsp : nx_shortest_path s src tgt with
    | none => rfl
    | some p =>
      rcases nx_shortest_path_some hsp with ⟨hwalk, _⟩
      exact absurd ⟨p, hwalk⟩ hnr

/-! ### Characterization of the loaded state -/

theorem mem_dinsert {α : Type} {m : List (String × α)} {k : String} {v : α} {p : String × α}
    (h : p ∈ dinsert m k v) : p ∈ m ∨ p.2 = v := by
  unfold dinsert at h
  by_cases hf : (m.find? (fun q => q.1 == k)).isSome
  · rw [if_pos hf] at h
    rcases List.mem_map.mp h with ⟨q, hq, hqe⟩
    by_cases hqk : (q.1 == k) = true
    · rw [if_pos hqk] at hqe
      right
      rw [← hqe]
    · rw [if_neg hqk] at hqe
      left
      rw [← hqe]
      exact hq
  · rw [if_neg hf] at h
    rcases List.mem_append.mp h with h | h
    · exact Or.inl h
    · simp at h
      right
      rw [h]

theorem addEdge_gNodes_supset (s : KGState) (e : EdgeRec) :
    s.gNodes ⊆ (addEdge s e).gNodes := by
  intro x hx
  unfold addEdge
  dsimp only
  by_cases h1 : e.src ∈ s.gNodes
  · rw [if_pos h1]
    by_cases h2 : e.dst ∈ s.gNodes
    · rw [if_pos h2]; exact hx
    · rw [if_neg h2]; exact List.mem_append_left _ hx
  · rw [if_neg h1]
    by_cases h2 : e.dst ∈ s.gNodes ++ [e.src]
    · rw [if_pos h2]; exact List.mem_append_left _ hx
    · rw [if_neg h2]; exact List.mem_append_left _ (List.mem_append_left _ hx)

theorem addEdge_src_mem (s : KGState) (e : EdgeRec) :
    e.src ∈ (addEdge s e).gNodes ∧ e.dst ∈ (addEdge s e).gNodes := by
  unfold addEdge
  dsimp only
  constructor
  · by_cases h1 : e.src ∈ s.gNodes
    · rw [if_pos h1]
      by_cases h2 : e.dst ∈ s.gNodes
      · rw [if_pos h2]; exact h1
      · rw [if_neg h2]; exact List.mem_append_left _ h1
    · rw [if_neg h1]
      have hmem : e.src ∈ s.gNodes ++ [e.src] := List.mem_append_right _ (by simp)
      by_cases h2 : e.dst ∈ s.gNodes ++ [e.src]
      · rw [if_pos h2]; exact hmem
      · rw [if_neg h2]; exact List.mem_append_left _ hmem
  · by_cases h1 : e.src ∈ s.gNodes
    · rw [if_pos h1]
      by_cases h2 : e.dst ∈ s.gNodes
      · rw [if_pos h2]; exact h2
      · rw [if_neg h2]; exact List.mem_append_right _ (by simp)
    · rw [if_neg h1]
      by_cases h2 : e.dst ∈ s.gNodes ++ [e.src]
      · rw [if_pos h2]; exact h2
      · rw [if_neg h2]; exact List.mem_append_right _ (by simp)

theorem addNode_gNodes_supset (s : KGState) (n : NodeRec) :
    s.gNodes ⊆ (addNode s n).gNodes := by
  intro x hx
  unfold addNode
  dsimp only
  by_cases h : n.id ∈ s.gNodes
  · rw [if_pos h]; exact hx
  · rw [if_neg h]; exact List.mem_append_left _ hx

theorem addNode_inv (s : KGState) (n : NodeRec)
    (h1 : ClosedEdges s) (h2 : ∀ p ∈ s.label_to_id, p.2 ∈ s.gNodes) :
    ClosedEdges (addNode s n) ∧
      ∀ p ∈ (addNode s n).label_to_id, p.2 ∈ (addNode s n).gNodes := by
  constructor
  · intro p hp
    have hE : (addNode s n).gEdges = s.gEdges := rfl
    rw [hE] at hp
    rcases h1 p hp with ⟨ha, hb⟩
    exact ⟨addNode_gNodes_supset s n ha, addNode_gNodes_supset s n hb⟩
  · intro p hp
    have hl : (addNode s n).label_to_id = dinsert s.label_to_id (nodeLabel n) n.id := rfl
    rw [hl] at hp
    rcases mem_dinsert hp with hp | hp
    · exact addNode_gNodes_supset s n (h2 p hp)
    · rw [hp]
      show n.id ∈ (addNode s n).gNodes
      unfold addNode
      dsimp only
      by_cases h : n.id ∈ s.gNodes
      · rw [if_pos h]; exact h
      · rw [if_neg h]; exact List.mem_append_right _ (by simp)

theorem addEdge_inv (s : KGState) (e : EdgeRec)
    (h1 : ClosedEdges s) (h2 : ∀ p ∈ s.label_to_id, p.2 ∈ s.gNodes) :
    ClosedEdges (addEdge s e) ∧
      ∀ p ∈ (addEdge s e).label_to_id, p.2 ∈ (addEdge s e).gNodes := by
  constructor
  · intro p hp
    have hE : (addEdge s e).gEdges = s.gEdges ++ [(e.src, e.dst)] := rfl
    rw [hE] at hp
    rcases List.mem_append.mp hp with hp | hp
    · rcases h1 p hp with ⟨ha, hb⟩
      exact ⟨addEdge_gNodes_supset s e ha, addEdge_gNodes_supset s e hb⟩
    · simp at hp
      rw [hp]
      exact addEdge_src_mem s e
  · intro p hp
    have hl : (addEdge s e).label_to_id = s.label_to_id := rfl
    rw [hl] at hp
    exact addEdge_gNodes_supset s e (h2 p hp)

theorem foldl_addNode_inv :
    ∀ (ns : List NodeRec) (s0 : KGState),
      (ClosedEdges s0 ∧ ∀ p ∈ s0.label_to_id, p.2 ∈ s0.gNodes) →
      (ClosedEdges (ns.foldl addNode s0) ∧
        ∀ p ∈ (ns.foldl addNode s0).label_to_id, p.2 ∈ (ns.foldl addNode s0).gNodes) := by
  intro ns
  induction ns with
  | nil => intro s0 h; exact h
  | cons n ns ih =>
    intro s0 h
    rw [List.foldl_cons]
    exact ih (addNode s0 n) (addNode_inv s0 n h.1 h.2)

theorem foldl_addEdge_inv :
    ∀ (es : List EdgeRec) (s0 : KGState),
      (ClosedEdges s0 ∧ ∀ p ∈ s0.label_to_id, p.2 ∈ s0.gNodes) →
      (ClosedEdges (es.foldl addEdge s0) ∧
        ∀ p ∈ (es.foldl addEdge s0).label_to_id, p.2 ∈ (es.foldl addEdge s0).gNodes) := by
  intro es
  induction es with
  | nil => intro s0 h; exact h
  | cons e es ih =>
    intro s0 h
    rw [List.foldl_cons]
    exact ih (addEdge s0 e) (addEdge_inv s0 e h.1 h.2)

theorem load_graph_closed (d : GraphDesc) : ClosedEdges (load_graph d) :=
  (foldl_addEdge_inv d.edges _
    (foldl_addNode_inv d.nodes emptyKG
      ⟨fun p hp => absurd hp (by simp [emptyKG]), fun p hp => absurd hp (by simp [emptyKG])⟩)).1

theorem load_graph_l2i_values (d : GraphDesc) :
    ∀ p ∈ (load_graph d).label_to_id, p.2 ∈ (load_graph d).gNodes :=
  (foldl_addEdge_inv d.edges _
    (foldl_addNode_inv d.nodes emptyKG
      ⟨fun p hp => absurd hp (by simp [emptyKG]), fun p hp => absurd hp (by simp [emptyKG])⟩)).2

theorem load_src_mem {d : GraphDesc} {A i : String}
    (h : dget (load_graph d).label_to_id A = some i) : i ∈ (load_graph d).gNodes :=
  load_graph_l2i_values d (A, i) (mem_of_dget_eq_some h)

theorem foldl_addEdge_l2i (es : List EdgeRec) (s0 : KGState) :
    (es.foldl addEdge s0).label_to_id = s0.label_to_id := by
  induction es generalizing s0 with
  | nil => rfl
  | cons e es ih => rw [List.foldl_cons]; exact ih (addEdge s0 e)

theorem foldl_addEdge_i2l (es : List EdgeRec) (s0 : KGState) :
    (es.foldl addEdge s0).id_to_label = s0.id_to_label := by
  induction es generalizing s0 with
  | nil => rfl
  | cons e es ih => rw [List.foldl_cons]; exact ih (addEdge s0 e)

theorem foldl_addEdge_gTypes (es : List EdgeRec) (s0 : KGState) :
    (es.foldl addEdge s0).gTypes = s0.gTypes := by
  induction es generalizing s0 with
  | nil => rfl
  | cons e es ih => rw [List.foldl_cons]; exact ih (addEdge s0 e)

theorem foldl_addEdge_gEdges (es : List EdgeRec) (s0 : KGState) :
    (es.foldl addEdge s0).gEdges = s0.gEdges ++ es.map (fun e => (e.src, e.dst)) := by
  induction es generalizing s0 with
  | nil => simp
  | cons e es ih =>
    rw [List.foldl_cons, ih (addEdge s0 e)]
    have hE : (addEdge s0 e).gEdges = s0.gEdges ++ [(e.src, e.dst)] := rfl
    rw [hE]
    simp

theorem foldl_addNode_gEdges (ns : List NodeRec) (s0 : KGState) :
    (ns.foldl addNode s0).gEdges = s0.gEdges := by
  induction ns generalizing s0 with
  | nil => rfl
  | cons n ns ih => rw [List.foldl_cons]; exact ih (addNode s0 n)

theorem load_gEdges_eq (d : GraphDesc) :
    (load_graph d).gEdges = d.edges.map (fun e => (e.src, e.dst)) := by
  unfold load_graph
  rw [foldl_addEdge_gEdges, foldl_addNode_gEdges]
  simp [emptyKG]

theorem foldl_addNode_l2i (ns : List NodeRec) :
    ∀ s0 : KGState,
      (∀ n ∈ ns, ∀ p ∈ s0.label_to_id, p.1 ≠ nodeLabel n) →
      (ns.map nodeLabel).Nodup →
      (ns.foldl addNode s0).label_to_id =
        s0.label_to_id ++ ns.map (fun n => (nodeLabel n, n.id)) := by
  induction ns with
  | nil => intro s0 _ _; simp
  | cons n ns ih =>
    intro s0 hfresh hnodup
    rw [List.map_cons, List.nodup_cons] at hnodup
    have hstep : (addNode s0 n).label_to_id = s0.label_to_id ++ [(nodeLabel n, n.id)] := by
      show dinsert s0.label_to_id (nodeLabel n) n.id = _
      exact dinsert_of_fresh (fun p hp => hfresh n (List.mem_cons_self n ns) p hp)
    rw [List.foldl_cons, ih (addNode s0 n) ?fresh hnodup.2, hstep]
    · simp
    case fresh =>
      intro n2 hn2 p hp
      rw [hstep] at hp
      rcases List.mem_append.mp hp with hp | hp
      · exact hfresh n2 (List.mem_cons_of_mem _ hn2) p hp
      · simp at hp
        rw [hp]
        dsimp only
        intro heq
        exact hnodup.1 (heq ▸ List.mem_map.mpr ⟨n2, hn2, rfl⟩)

theorem foldl_addNode_i2l (ns : List NodeRec) :
    ∀ s0 : KGState,
      (∀ n ∈ ns, ∀ p ∈ s0.id_to_label, p.1 ≠ n.id) →
      (ns.map NodeRec.id).Nodup →
      (ns.foldl addNode s0).id_to_label =
        s0.id_to_label ++ ns.map (fun n => (n.id, nodeLabel n)) := by
  induction ns with
  | nil => intro s0 _ _; simp
  | cons n ns ih =>
    intro s0 hfresh hnodup
    rw [List.map_cons, List.nodup_cons] at hnodup
    have hstep : (addNode s0 n).id_to_label = s0.id_to_label ++ [(n.id, nodeLabel n)] := by
      show dinsert s0.id_to_label n.id (nodeLabel n) = _
      exact dinsert_of_fresh (fun p hp => hfresh n (List.mem_cons_self n ns) p hp)
    rw [List.foldl_cons, ih (addNode s0 n) ?fresh hnodup.2, hstep]
    · simp
    case fresh =>
      intro n2 hn2 p hp
      rw [hstep] at hp
      rcases List.mem_append.mp hp with hp | hp
      · exact hfresh n2 (List.mem_cons_of_mem _ hn2) p hp
      · simp at hp
        rw [hp]
        dsimp only
        intro heq
        exact hnodup.1 (heq ▸ List.mem_map.mpr ⟨n2, hn2, rfl⟩)

theorem foldl_addNode_gTypes (ns : List NodeRec) :
    ∀ s0 : KGState,
      (∀ n ∈ ns, ∀ p ∈ s0.gTypes, p.1 ≠ n.id) →
      (ns.map NodeRec.id).Nodup →
      (ns.foldl addNode s0).gTypes =
        s0.gTypes ++ ns.filterMap (fun n => n.type.map (fun t => (n.id, t))) := by
  induction ns with
  | nil => intro s0 _ _; simp
  | cons n ns ih =>
    intro s0 hfresh hnodup
    rw [List.map_cons, List.nodup_cons] at hnodup
    have hstep : (addNode s0 n).gTypes =
        s0.gTypes ++ (n.type.map (fun t => (n.id, t))).toList := by
      show (match n.type with
        | some t => dinsert s0.gTypes n.id t
        | none => s0.gTypes) = _
      cases ht : n.type with
      | none => simp
      | some t =>
        simp only [Option.map_some, Option.toList_some]
        exact dinsert_of_fresh (fun p hp => hfresh n (List.mem_cons_self n ns) p hp)
    rw [List.foldl_cons, ih (addNode s0 n) ?fresh hnodup.2, hstep]
    · cases ht : n.type with
      | none => simp [ht]
      | some t => simp [ht]
    case fresh =>
      intro n2 hn2 p hp
      rw [hstep] at hp
      rcases List.mem_append.mp hp with hp | hp
      · exact hfresh n2 (List.mem_cons_of_mem _ hn2) p hp
      · cases ht : n.type with
        | none => rw [ht] at hp; simp at hp
        | some t =>
          rw [ht] at hp
          simp at hp
          rw [hp]
          dsimp only
          intro heq
          exact hnodup.1 (heq ▸ List.mem_map.mpr ⟨n2, hn2, rfl⟩)

theorem foldl_addNode_gNodes (ns : List NodeRec) :
    ∀ s0 : KGState,
      (∀ n ∈ ns, n.id ∉ s0.gNodes) →
      (ns.map NodeRec.id).Nodup →
      (ns.foldl addNode s0).gNodes = s0.gNodes ++ ns.map NodeRec.id := by
  induction ns with
  | nil => intro s0 _ _; simp
  | cons n ns ih =>
    intro s0 hfresh hnodup
    rw [List.map_cons, List.nodup_cons] at hnodup
    have hstep : (addNode s0 n).gNodes = s0.gNodes ++ [n.id] := by
      show (if n.id ∈ s0.gNodes then s0.gNodes else s0.gNodes ++ [n.id]) = _
      rw [if_neg (hfresh n (List.mem_cons_self n ns))]
    rw [List.foldl_cons, ih (addNode s0 n) ?fresh hnodup.2, hstep]
    · simp
    case fresh =>
      intro n2 hn2
      rw [hstep]
      intro hmem
      rcases List.mem_append.mp hmem with hmem | hmem
      · exact hfresh n2 (List.mem_cons_of_mem _ hn2) hmem
      · simp at hmem
        exact hnodup.1 (hmem ▸ List.mem_map.mpr ⟨n2, hn2, rfl⟩)

theorem foldl_addEdge_gNodes_of_mem (es : List EdgeRec) :
    ∀ s0 : KGState,
      (∀ e ∈ es, e.src ∈ s0.gNodes ∧ e.dst ∈ s0.gNodes) →
      (es.foldl addEdge s0).gNodes = s0.gNodes := by
  induction es with
  | nil => intro s0 _; rfl
  | cons e es ih =>
    intro s0 h
    have hstep : (addEdge s0 e).gNodes = s0.gNodes := by
      rcases h e (List.mem_cons_self e es) with ⟨h1, h2⟩
      show (if e.dst ∈ (if e.src ∈ s0.gNodes then s0.gNodes else s0.gNodes ++ [e.src])
            then (if e.src ∈ s0.gNodes then s0.gNodes else s0.gNodes ++ [e.src])
            else (if e.src ∈ s0.gNodes then s0.gNodes else s0.gNodes ++ [e.src]) ++ [e.dst])
          = s0.gNodes
      rw [if_pos h1, if_pos h2]
    rw [List.foldl_cons, ih (addEdge s0 e) ?mem, hstep]
    case mem =>
      intro e2 he2
      rw [hstep]
      exact h e2 (List.mem_cons_of_mem _ he2)

theorem load_l2i_eq (d : GraphDesc) (h : WellFormed d) :
    (load_graph d).label_to_id = d.nodes.map (fun n => (nodeLabel n, n.id)) := by
  unfold load_graph
  rw [foldl_addEdge_l2i]
  rw [foldl_addNode_l2i d.nodes emptyKG (fun n _ p hp => absurd hp (by simp [emptyKG])) h.2.1]
  simp [emptyKG]

theorem load_i2l_eq (d : GraphDesc) (h : WellFormed d) :
    (load_graph d).id_to_label = d.nodes.map (fun n => (n.id, nodeLabel n)) := by
  unfold load_graph
  rw [foldl_addEdge_i2l]
  rw [foldl_addNode_i2l d.nodes emptyKG (fun n _ p hp => absurd hp (by simp [emptyKG])) h.1]
  simp [emptyKG]

theorem load_gTypes_eq (d : GraphDesc) (h : WellFormed d) :
    (load_graph d).gTypes = d.nodes.filterMap (fun n => n.type.map (fun t => (n.id, t))) := by
  unfold load_graph
  rw [foldl_addEdge_gTypes]
  rw [foldl_addNode_gTypes d.nodes emptyKG (fun n _ p hp => absurd hp (by simp [emptyKG])) h.1]
  simp [emptyKG]

theorem load_gNodes_eq (d : GraphDesc) (h : WellFormed d) :
    (load_graph d).gNodes = d.nodes.map NodeRec.id := by
  unfold load_graph
  have h1 : (d.nodes.foldl addNode emptyKG).gNodes = d.nodes.map NodeRec.id := by
    rw [foldl_addNode_gNodes d.nodes emptyKG (fun n _ => by simp [emptyKG]) h.1]
    simp [emptyKG]
  rw [foldl_addEdge_gNodes_of_mem d.edges _ ?hmem, h1]
  case hmem =>
    intro e he
    rw [h1]
    exact h.2.2 e he

theorem load_dget_l2i (d : GraphDesc) (h : WellFormed d) {l i : String} :
    dget (load_graph d).label_to_id l = some i ↔
      ∃ n ∈ d.nodes, nodeLabel n = l ∧ n.id = i := by
  rw [load_l2i_eq d h]
  rw [dget_eq_some_iff ?keys]
  · constructor
    · intro hmem
      rcases List.mem_map.mp hmem with ⟨n, hn, he⟩
      rw [Prod.mk.injEq] at he
      exact ⟨n, hn, he.1, he.2⟩
    · rintro ⟨n, hn, h1, h2⟩
      exact List.mem_map.mpr ⟨n, hn, by rw [h1, h2]⟩
  case keys =>
    have hcomp : (d.nodes.map (fun n => (nodeLabel n, n.id))).map Prod.fst =
        d.nodes.map nodeLabel := by
      simp
    rw [hcomp]
    exact h.2.1

theorem load_dget_i2l (d : GraphDesc) (h : WellFormed d) {i l : String} :
    dget (load_graph d).id_to_label i = some l ↔
      ∃ n ∈ d.nodes, n.id = i ∧ nodeLabel n = l := by
  rw [load_i2l_eq d h]
  rw [dget_eq_some_iff ?keys]
  · constructor
    · intro hmem
      rcases List.mem_map.mp hmem with ⟨n, hn, he⟩
      rw [Prod.mk.injEq] at he
      exact ⟨n, hn, he.1, he.2⟩
    · rintro ⟨n, hn, h1, h2⟩
      exact List.mem_map.mpr ⟨n, hn, by rw [h1, h2]⟩
  case keys =>
    have hcomp : (d.nodes.map (fun n => (n.id, nodeLabel n))).map Prod.fst =
        d.nodes.map NodeRec.id := by
      simp
    rw [hcomp]
    exact h.1

theorem gTypes_keys_sublist (ns : List NodeRec) :
    List.Sublist ((ns.filterMap (fun n => n.type.map (fun t => (n.id, t)))).map Prod.fst)
      (ns.map NodeRec.id) := by
  induction ns with
  | nil => simp
  | cons n ns ih =>
    cases ht : n.type with
    | none =>
      simp only [List.filterMap_cons, ht, Option.map_none, List.map_cons]
      exact ih.cons n.id
    | some t =>
      simp only [List.filterMap_cons, ht, Option.map_some, List.map_cons]
      exact ih.cons₂ n.id

theorem load_dget_gTypes (d : GraphDesc) (h : WellFormed d) {i T : String} :
    dget (load_graph d).gTypes i = some T ↔
      ∃ n ∈ d.nodes, n.id = i ∧ n.type = some T := by
  rw [load_gTypes_eq d h]
  rw [dget_eq_some_iff ((gTypes_keys_sublist d.nodes).nodup h.1)]
  rw [List.mem_filterMap]
  constructor
  · rintro ⟨n, hn, he⟩
    rw [Option.map_eq_some'] at he
    rcases he with ⟨t, ht, hpair⟩
    rw [Prod.mk.injEq] at hpair
    exact ⟨n, hn, hpair.1, by rw [ht, hpair.2]⟩
  · rintro ⟨n, hn, h1, h2⟩
    exact ⟨n, hn, by rw [h2]; simp [h1]⟩

theorem load_inverse_maps (d : GraphDesc) (h : WellFormed d) {l i : String} :
    dget (load_graph d).label_to_id l = some i ↔
      dget (load_graph d).id_to_label i = some l := by
  rw [load_dget_l2i d h, load_dget_i2l d h]
  constructor
  · rintro ⟨n, hn, h1, h2⟩
    exact ⟨n, hn, h2, h1⟩
  · rintro ⟨n, hn, h1, h2⟩
    exact ⟨n, hn, h2, h1⟩

theorem load_gNodes_labeled (d : GraphDesc) (h : WellFormed d) {i : String}
    (hi : i ∈ (load_graph d).gNodes) :
    ∃ l, dget (load_graph d).id_to_label i = some l := by
  rw [load_gNodes_eq d h] at hi
  rcases List.mem_map.mp hi with ⟨n, hn, hid⟩
  exact ⟨nodeLabel n, (load_dget_i2l d h).mpr ⟨n, hn, hid, rfl⟩⟩

/-! ### Behavior of the label-list comprehension -/

theorem mapLabels_ok (s : KGState) :
    ∀ p : List String, (∀ x ∈ p, (dget s.id_to_label x).isSome) →
      mapLabels s p =
        Except.ok (p.map (fun x => (dget s.id_to_label x).getD "")) := by
  intro p
  induction p with
  | nil => intro _; rfl
  | cons i rest ih =>
    intro h
    have hi := h i (List.mem_cons_self i rest)
    cases hd : dget s.id_to_label i with
    | none => rw [hd] at hi; simp at hi
    | some l =>
      show (match dget s.id_to_label i with
        | some l => (mapLabels s rest).map (fun L => l :: L)
        | none => Except.error i) = _
      rw [hd, ih (fun x hx => h x (List.mem_cons_of_mem _ hx))]
      simp [hd]
      rfl

theorem mapLabels_error {s : KGState} :
    ∀ p : List String, (∃ x ∈ p, dget s.id_to_label x = none) →
      ∃ e, mapLabels s p = Except.error e := by
  intro p
  induction p with
  | nil => rintro ⟨x, hx, _⟩; simp at hx
  | cons i rest ih =>
    rintro ⟨x, hx, hnone⟩
    show ∃ e, (match dget s.id_to_label i with
      | some l => (mapLabels s rest).map (fun L => l :: L)
      | none => Except.error i) = Except.error e
    cases hd : dget s.id_to_label i with
    | none => exact ⟨i, rfl⟩
    | some l =>
      rcases List.mem_cons.mp hx with heq | hmem
      · rw [heq] at hnone
        rw [hnone] at hd
        cases hd
      · rcases ih ⟨x, hmem, hnone⟩ with ⟨e, he⟩
        rw [he]
        exact ⟨e, rfl⟩

theorem walk_mem_nodes {s : KGState} (hC : ClosedEdges s) :
    ∀ p u v, IsWalk s.gEdges u v p → u ∈ s.gNodes → ∀ x ∈ p, x ∈ s.gNodes := by
  intro p
  induction p with
  | nil =>
    intro u v h _ x hx
    simp at hx
  | cons a rest ih =>
    intro u v h hu x hx
    obtain ⟨hh, hl, hc⟩ := h
    have hau : a = u := by
      simp at hh
      exact hh
    rcases List.mem_cons.mp hx with hxa | hxr
    · rw [hxa, hau]
      exact hu
    · cases hrest : rest with
      | nil =>
        rw [hrest] at hxr
        simp at hxr
      | cons b rest2 =>
        rw [hrest] at hc hxr hl ih
        rw [List.chain'_cons'] at hc
        obtain ⟨hab, hc2⟩ := hc
        have hb : b ∈ adjacency s.gEdges a := hab b rfl
        have hbn : b ∈ s.gNodes := adjacency_mem_nodes hC hb
        have hlast : (b :: rest2).getLast? = some v := by
          rw [List.getLast?_cons_cons] at hl
          cases rest2 with
          | nil => simpa using hl
          | cons c r3 => simpa using hl
        exact ih b v ⟨rfl, hlast, hc2⟩ hbn x hxr

/-- C4: for a label absent from `label_to_id`, `get_neighbors` returns the
empty list, `get_node_type` returns `None`, and `find_path` returns the
empty list whatever the other label is; none of the three raises. -/
theorem unknown_label_queries (d : GraphDesc) (L : String)
    (h : dget (load_graph d).label_to_id L = none) :
    get_neighbors (load_graph d) L = Except.ok [] ∧
    get_node_type (load_graph d) L = Except.ok none ∧
    ∀ X : String, find_path (load_graph d) L X = Except.ok [] := by
  refine ⟨?_, ?_, ?_⟩
  · unfold get_neighbors
    rw [h]
  · unfold get_node_type
    rw [h]
  · intro X
    unfold find_path
    rw [h]

/-- C4 witness at a concrete graph and unknown label. -/
theorem unknown_label_queries_w :
    dget (load_graph gdMain).label_to_id "LZ" = none ∧
    (get_neighbors (load_graph gdMain) "LZ" = Except.ok [] ∧
     get_node_type (load_graph gdMain) "LZ" = Except.ok none ∧
     ∀ X : String, find_path (load_graph gdMain) "LZ" X = Except.ok []) :=
  ⟨by decide, unknown_label_queries gdMain "LZ" (by decide)⟩

/-- C5: for any known label A of a well-formed loaded graph,
`find_path(A, A)` returns the one-element list `[A]`. -/
theorem find_path_self (d : GraphDesc) (h : WellFormed d) (A i : String)
    (hA : dget (load_graph d).label_to_id A = some i) :
    find_path (load_graph d) A A = Except.ok [A] := by
  have hinv : dget (load_graph d).id_to_label i = some A :=
    (load_inverse_maps d h).mp hA
  unfold find_path
  rw [hA]
  show (match nx_shortest_path (load_graph d) i i with
    | some path_ids => mapLabels (load_graph d) path_ids
    | none => Except.ok []) = Except.ok [A]
  rw [nx_shortest_path_self]
  show mapLabels (load_graph d) [i] = Except.ok [A]
  have := mapLabels_ok (load_graph d) [i]
    (fun x hx => by simp at hx; rw [hx, hinv]; rfl)
  rw [this]
  simp [hinv]

/-- C5 witness. -/
theorem find_path_self_w :
    WellFormed gdMain ∧
    dget (load_graph gdMain).label_to_id "LA" = some "A" ∧
    find_path (load_graph gdMain) "LA" "LA" = Except.ok ["LA"] :=
  ⟨by decide, by decide, find_path_self gdMain (by decide) "LA" "A" (by decide)⟩

/-- C3: if both labels are known in a well-formed loaded graph and the two
nodes are connected, `find_path` returns a label list starting at A,
ending at B, whose length is the true hop-distance plus one. -/
theorem find_path_shortest (d : GraphDesc) (h : WellFormed d) (A B src tgt : String)
    (hA : dget (load_graph d).label_to_id A = some src)
    (hB : dget (load_graph d).label_to_id B = some tgt)
    (hr : Reachable (load_graph d).gEdges src tgt) :
    ∃ L dist, find_path (load_graph d) A B = Except.ok L ∧
      L.head? = some A ∧ L.getLast? = some B ∧
      HopDistance (load_graph d).gEdges src tgt dist ∧ L.length = dist + 1 := by
  have hsrc : src ∈ (load_graph d).gNodes := load_src_mem hA
  have hC : ClosedEdges (load_graph d) := load_graph_closed d
  cases hsp : nx_shortest_path (load_graph d) src tgt with
  | none => exact absurd hr ((nx_shortest_path_none_iff hsrc hC).mp hsp)
  | some p =>
    rcases nx_shortest_path_some hsp with ⟨hwalk, hdist⟩
    have hvert : ∀ x ∈ p, x ∈ (load_graph d).gNodes :=
      walk_mem_nodes hC p src tgt hwalk hsrc
    have hlab : ∀ x ∈ p, (dget (load_graph d).id_to_label x).isSome := by
      intro x hx
      rcases load_gNodes_labeled d h (hvert x hx) with ⟨l, hl⟩
      rw [hl]
      rfl
    have hmap := mapLabels_ok (load_graph d) p hlab
    obtain ⟨hh, hl, _⟩ := hwalk
    have hpne : p ≠ [] := by
      intro hnil
      rw [hnil] at hh
      simp at hh
    have hplen : 1 ≤ p.length := by
      cases p with
      | nil => exact absurd rfl hpne
      | cons a l => simp
    refine ⟨p.map (fun x => (dget (load_graph d).id_to_label x).getD ""),
      p.length - 1, ?_, ?_, ?_, hdist, ?_⟩
    · unfold find_path
      rw [hA, hB]
      show (match nx_shortest_path (load_graph d) src tgt with
        | some path_ids => mapLabels (load_graph d) path_ids
        | none => Except.ok []) = _
      rw [hsp]
      show mapLabels (load_graph d) p = _
      rw [hmap]
    · rw [List.head?_map, hh]
      have hsrcA : dget (load_graph d).id_to_label src = some A :=
        (load_inverse_maps d h).mp hA
      simp [hsrcA]
    · rw [List.getLast?_map, hl]
      have htgtB : dget (load_graph d).id_to_label tgt = some B :=
        (load_inverse_maps d h).mp hB
      simp [htgtB]
    · rw [List.length_map]
      omega

/-- C3 witness: in the concrete graph, LA and LC are two hops apart. -/
theorem find_path_shortest_w :
    WellFormed gdMain ∧
    (∃ L dist, find_path (load_graph gdMain) "LA" "LC" = Except.ok L ∧
      L.head? = some "LA" ∧ L.getLast? = some "LC" ∧
      HopDistance (load_graph gdMain).gEdges "A" "C" dist ∧ L.length = dist + 1) :=
  ⟨by decide, find_path_shortest gdMain (by decide) "LA" "LC" "A" "C" (by decide) (by decide)
    ⟨["A", "B", "C"], rfl, rfl,
      List.Chain.cons (by decide) (List.Chain.cons (by decide) List.Chain.nil)⟩⟩

/-- C6: after a well-formed load the two maps are strict inverses with no
orphaned entries: a label maps to an id exactly when the id maps back to
that label, every graph node has a label entry, and every label entry
points at a graph node. -/
theorem load_maps_strict_inverse (d : GraphDesc) (h : WellFormed d) :
    (∀ l i : String, dget (load_graph d).label_to_id l = some i ↔
        dget (load_graph d).id_to_label i = some l) ∧
    (∀ i ∈ (load_graph d).gNodes, ∃ l, dget (load_graph d).id_to_label i = some l) ∧
    (∀ l i : String, dget (load_graph d).label_to_id l = some i →
        i ∈ (load_graph d).gNodes) := by
  refine ⟨?_, ?_, ?_⟩
  · intro l i
    exact load_inverse_maps d h
  · intro i hi
    exact load_gNodes_labeled d h hi
  · intro l i hl
    exact load_src_mem hl

/-- C6 witness. -/
theorem load_maps_strict_inverse_w :
    WellFormed gdMain ∧
    ((∀ l i : String, dget (load_graph gdMain).label_to_id l = some i ↔
        dget (load_graph gdMain).id_to_label i = some l) ∧
     (∀ i ∈ (load_graph gdMain).gNodes,
        ∃ l, dget (load_graph gdMain).id_to_label i = some l) ∧
     (∀ l i : String, dget (load_graph gdMain).label_to_id l = some i →
        i ∈ (load_graph gdMain).gNodes)) :=
  ⟨by decide, load_maps_strict_inverse gdMain (by decide)⟩

/-- C8: loading a description whose edge references the missing node `X`
succeeds — the graph silently gains `X` as a node — but `X` gets no
`id_to_label` entry, so `get_neighbors` on the existing endpoint's label
raises `KeyError: X`. -/
theorem dangling_edge_keyerror :
    (load_graph gdDangling).gNodes = ["A", "X"] ∧
    dget (load_graph gdDangling).id_to_label "X" = none ∧
    get_neighbors (load_graph gdDangling) "LA" = Except.error "X" := by
  refine ⟨by decide, by decide, by decide⟩

/-- C10: `get_nodes_by_type` never raises — for a node id of matching type
with no `id_to_label` entry it falls back to the raw id — whereas
`get_neighbors` raises `KeyError` whenever such an id is a neighbor of the
queried node. -/
theorem nodes_by_type_fallback (s : KGState) (T i : String)
    (h1 : i ∈ s.gNodes) (h2 : dget s.gTypes i = some T)
    (h3 : dget s.id_to_label i = none) :
    i ∈ get_nodes_by_type s T ∧
    (∀ lbl j, dget s.label_to_id lbl = some j → i ∈ adjacency s.gEdges j →
      ∃ e, get_neighbors s lbl = Except.error e) := by
  constructor
  · unfold get_nodes_by_type
    apply List.mem_map.mpr
    refine ⟨i, ?_, ?_⟩
    · apply List.mem_filter.mpr
      exact ⟨h1, by simp [h2]⟩
    · rw [h3]
      rfl
  · intro lbl j hj hadj
    unfold get_neighbors
    rw [hj]
    exact mapLabels_error _ ⟨i, hadj, h3⟩

/-- C10 witness at a state with a typed, unlabelled node `X`. -/
theorem nodes_by_type_fallback_w :
    "X" ∈ stateOrphan.gNodes ∧
    dget stateOrphan.gTypes "X" = some "hospital" ∧
    dget stateOrphan.id_to_label "X" = none ∧
    ("X" ∈ get_nodes_by_type stateOrphan "hospital" ∧
     (∀ lbl j, dget stateOrphan.label_to_id lbl = some j →
        "X" ∈ adjacency stateOrphan.gEdges j →
        ∃ e, get_neighbors stateOrphan lbl = Except.error e)) :=
  ⟨by decide, by decide, by decide,
    nodes_by_type_fallback stateOrphan "hospital" "X" (by decide) (by decide) (by decide)⟩

/-- C2: `call_llm` always returns a string, never an exception: provider
errors become the error sentinel embedding the message, a response with no
usable text becomes the fixed sentinel, and usable text is returned with
surrounding whitespace stripped. -/
theorem call_llm_total (behavior : String → Option String → String → GenOutcome)
    (p : String) (si : Option String) (m : String) :
    (∀ e, behavior p si m = GenOutcome.raises e →
      call_llm behavior p si m = "[LLM ERROR] " ++ e) ∧
    (behavior p si m = GenOutcome.returns none →
      call_llm behavior p si m = "[LLM returned no text response]") ∧
    (∀ t, behavior p si m = GenOutcome.returns (some t) →
      (t = "" → call_llm behavior p si m = "[LLM returned no text response]") ∧
      (t ≠ "" → call_llm behavior p si m = pyStrip t)) := by
  refine ⟨?_, ?_, ?_⟩
  · intro e he
    unfold call_llm
    rw [he]
  · intro he
    unfold call_llm
    rw [he]
  · intro t ht
    have hred : call_llm behavior p si m =
        if t = "" then "[LLM returned no text response]" else pyStrip t := by
      unfold call_llm
      rw [ht]
    rw [hred]
    constructor
    · intro h0
      rw [if_pos h0]
    · intro h0
      rw [if_neg h0]

/-- C2 witness: a padded provider response is trimmed. -/
theorem call_llm_total_w :
    behaviorOk "hi" none DEFAULT_MODEL = GenOutcome.returns (some "  hello  ") ∧
    call_llm behaviorOk "hi" none DEFAULT_MODEL = "hello" :=
  ⟨rfl, by
    rw [((call_llm_total behaviorOk "hi" none DEFAULT_MODEL).2.2 "  hello  " rfl).2
      (by decide)]
    decide⟩

/-- C7: a blank query returns the empty sequence with no embedding call;
otherwise one embedding call is made and at most `k` hits come back, each
carrying a stored document's text, metadata and distance score, in
non-decreasing score order. -/
theorem retrieve_spec (r : RAGRetriever) (q : String) (k : Nat) :
    (pyStrip q = "" → retrieve r q k = ([], 0)) ∧
    (pyStrip q ≠ "" →
      (retrieve r q k).2 = 1 ∧
      (retrieve r q k).1.length ≤ k ∧
      List.Pairwise (fun a b : QueryHit => a.score ≤ b.score) (retrieve r q k).1 ∧
      ∀ hit ∈ (retrieve r q k).1, ∃ doc ∈ r.collection,
        hit.text = doc.text ∧ hit.metadata = doc.metadata ∧
        hit.score = sqdist (r.embedder q) doc.embedding) := by
  constructor
  · intro hq
    unfold retrieve
    rw [if_pos (Or.inr hq)]
  · intro hq
    have hcond : ¬ (q = "" ∨ pyStrip q = "") := by
      rintro (h | h)
      · exact hq (by rw [h]; rfl)
      · exact hq h
    have hr : retrieve r q k =
        (((r.collection.insertionSort (docLe (r.embedder q))).take k).map
          (fun doc => (⟨doc.text, doc.metadata,
            sqdist (r.embedder q) doc.embedding⟩ : QueryHit)), 1) := by
      unfold retrieve
      rw [if_neg hcond]
      unfold collection_query
      simp only [List.zip_map', List.map_map]
      rfl
    rw [hr]
    refine ⟨rfl, ?_, ?_, ?_⟩
    · rw [List.length_map, List.length_take]
      exact min_le_left _ _
    · have hsorted : List.Sorted (docLe (r.embedder q))
          (r.collection.insertionSort (docLe (r.embedder q))) :=
        List.sorted_insertionSort _ _
      have htake : List.Pairwise (docLe (r.embedder q))
          ((r.collection.insertionSort (docLe (r.embedder q))).take k) :=
        List.Pairwise.sublist (List.take_sublist k _) hsorted
      exact List.Pairwise.map _ (fun a b hab => hab) htake
    · intro hit hmem
      rcases List.mem_map.mp hmem with ⟨doc, hdoc, he⟩
      have h1 : doc ∈ r.collection.insertionSort (docLe (r.embedder q)) :=
        (List.take_sublist k _).subset hdoc
      have h2 : doc ∈ r.collection :=
        (List.perm_insertionSort (docLe (r.embedder q)) r.collection).subset h1
      exact ⟨doc, h2, by rw [← he], by rw [← he], by rw [← he]⟩

/-- C7 witness over the two-document fixture. -/
theorem retrieve_spec_w :
    pyStrip "q" ≠ "" ∧
    ((retrieve ragEx "q" 1).2 = 1 ∧
     (retrieve ragEx "q" 1).1.length ≤ 1 ∧
     List.Pairwise (fun a b : QueryHit => a.score ≤ b.score) (retrieve ragEx "q" 1).1 ∧
     ∀ hit ∈ (retrieve ragEx "q" 1).1, ∃ doc ∈ ragEx.collection,
       hit.text = doc.text ∧ hit.metadata = doc.metadata ∧
       hit.score = sqdist (ragEx.embedder "q") doc.embedding) :=
  ⟨by decide, (retrieve_spec ragEx "q" 1).2 (by decide)⟩

/-- Invariant of the candidate loop of `find_nearest_node_of_type`: after
folding over `l` starting from an accumulator that is correct for the
already-processed candidates `S`, the accumulator is correct for `S ++ l`:
it is `none` exactly when no candidate had a path, and otherwise holds a
candidate together with its shortest path, of minimal length among all
candidates' shortest paths. -/
theorem nearestFold_inv (s : KGState) (src : String) :
    ∀ (l : List String) (acc : Option (String × List String)) (S : List String),
      ((acc = none ∧ ∀ t ∈ S, nx_shortest_path s src t = none) ∨
       (∃ bt bp, acc = some (bt, bp) ∧ bt ∈ S ∧
          nx_shortest_path s src bt = some bp ∧
          ∀ t ∈ S, ∀ q, nx_shortest_path s src t = some q → bp.length ≤ q.length)) →
      ((l.foldl (nearestFold s src) acc = none ∧
          ∀ t ∈ S ++ l, nx_shortest_path s src t = none) ∨
       (∃ bt bp, l.foldl (nearestFold s src) acc = some (bt, bp) ∧ bt ∈ S ++ l ∧
          nx_shortest_path s src bt = some bp ∧
          ∀ t ∈ S ++ l, ∀ q, nx_shortest_path s src t = some q → bp.length ≤ q.length)) := by
  intro l
  induction l with
  | nil =>
    intro acc S hacc
    rw [List.foldl_nil, List.append_nil]
    exact hacc
  | cons x l ih =>
    intro acc S hacc
    rw [List.foldl_cons]
    have hstep :
        ((nearestFold s src acc x = none ∧
            ∀ t ∈ S ++ [x], nx_shortest_path s src t = none) ∨
         (∃ bt bp, nearestFold s src acc x = some (bt, bp) ∧ bt ∈ S ++ [x] ∧
            nx_shortest_path s src bt = some bp ∧
            ∀ t ∈ S ++ [x], ∀ q, nx_shortest_path s src t = some q →
              bp.length ≤ q.length)) := by
      cases hsp : nx_shortest_path s src x with
      | none =>
        have hNF : nearestFold s src acc x = acc := by
          unfold nearestFold
          rw [hsp]
        rcases hacc with ⟨h1, h2⟩ | ⟨bt, bp, h1, h2, h3, h4⟩
        · left
          refine ⟨by rw [hNF, h1], ?_⟩
          intro t ht
          rcases List.mem_append.mp ht with ht | ht
          · exact h2 t ht
          · simp at ht
            rw [ht]
            exact hsp
        · right
          refine ⟨bt, bp, by rw [hNF, h1], List.mem_append_left _ h2, h3, ?_⟩
          intro t ht q hq
          rcases List.mem_append.mp ht with ht | ht
          · exact h4 t ht q hq
          · simp at ht
            rw [ht] at hq
            rw [hq] at hsp
            cases hsp
      | some p =>
        rcases hacc with ⟨h1, h2⟩ | ⟨bt, bp, h1, h2, h3, h4⟩
        · have hNF : nearestFold s src acc x = some (x, p) := by
            unfold nearestFold
            rw [hsp, h1]
          right
          refine ⟨x, p, hNF, List.mem_append_right _ (by simp), hsp, ?_⟩
          intro t ht q hq
          rcases List.mem_append.mp ht with ht | ht
          · rw [h2 t ht] at hq
            cases hq
          · simp at ht
            rw [ht] at hq
            rw [hq] at hsp
            injection hsp with hsp
            rw [hsp]
        · by_cases hlt : p.length < bp.length
          · have hNF : nearestFold s src acc x = some (x, p) := by
              unfold nearestFold
              rw [hsp, h1]
              show (if p.length < bp.length then some (x, p) else some (bt, bp)) = some (x, p)
              rw [if_pos hlt]
            right
            refine ⟨x, p, hNF, List.mem_append_right _ (by simp), hsp, ?_⟩
            intro t ht q hq
            rcases List.mem_append.mp ht with ht | ht
            · have := h4 t ht q hq
              omega
            · simp at ht
              rw [ht] at hq
              rw [hq] at hsp
              injection hsp with hsp
              rw [hsp]
          · have hNF : nearestFold s src acc x = some (bt, bp) := by
              unfold nearestFold
              rw [hsp, h1]
              show (if p.length < bp.length then some (x, p) else some (bt, bp)) = some (bt, bp)
              rw [if_neg hlt]
            right
            refine ⟨bt, bp, hNF, List.mem_append_left _ h2, h3, ?_⟩
            intro t ht q hq
            rcases List.mem_append.mp ht with ht | ht
            · exact h4 t ht q hq
            · simp at ht
              rw [ht] at hq
              rw [hq] at hsp
              injection hsp with hsp
              rw [hsp]
              omega
    have hres := ih (nearestFold s src acc x) (S ++ [x]) hstep
    rcases hres with ⟨h1, h2⟩ | ⟨bt, bp, h1, h2, h3, h4⟩
    · left
      refine ⟨h1, ?_⟩
      intro t ht
      apply h2
      simp at ht ⊢
      tauto
    · right
      refine ⟨bt, bp, h1, ?_, h3, ?_⟩
      · simp at h2 ⊢
        tauto
      · intro t ht q hq
        apply h4 t ?_ q hq
        simp at ht ⊢
        tauto

theorem hopDistance_unique {E : List (String × String)} {u v : String} {d1 d2 : Nat}
    (h1 : HopDistance E u v d1) (h2 : HopDistance E u v d2) : d1 = d2 := by
  rcases h1 with ⟨⟨p1, hp1, hl1⟩, hmin1⟩
  rcases h2 with ⟨⟨p2, hp2, hl2⟩, hmin2⟩
  have ha := hmin1 p2 hp2
  have hb := hmin2 p1 hp1
  omega

theorem nx_shortest_path_of_reachable {s : KGState} {src tgt : String}
    (hs : src ∈ s.gNodes) (hC : ClosedEdges s)
    (hr : Reachable s.gEdges src tgt) :
    ∃ p, nx_shortest_path s src tgt = some p := by
  cases hsp : nx_shortest_path s src tgt with
  | none => exact absurd hr ((nx_shortest_path_none_iff hs hC).mp hsp)
  | some p => exact ⟨p, rfl⟩

/-- C1: for a well-formed loaded graph, `find_nearest_node_of_type(A, T)`
returns `None` exactly when the source label is unknown, no node of type T
exists, or no node of type T is reachable from A's node; otherwise it
returns a label whose node's stored type is T together with a path whose
length is minimal among the shortest paths to every reachable node of
type T. -/
theorem find_nearest_spec (d : GraphDesc) (h : WellFormed d) (A T : String) :
    (dget (load_graph d).label_to_id A = none →
      find_nearest_node_of_type (load_graph d) A T = Except.ok none) ∧
    (∀ src, dget (load_graph d).label_to_id A = some src →
      ((find_nearest_node_of_type (load_graph d) A T = Except.ok none ↔
         ¬ ∃ t, t ∈ (load_graph d).gNodes ∧
             dget (load_graph d).gTypes t = some T ∧
             Reachable (load_graph d).gEdges src t) ∧
       (∀ lbl pls, find_nearest_node_of_type (load_graph d) A T =
           Except.ok (some (lbl, pls)) →
         get_node_type (load_graph d) lbl = Except.ok (some T) ∧
         ∀ t dt, t ∈ (load_graph d).gNodes →
           dget (load_graph d).gTypes t = some T →
           HopDistance (load_graph d).gEdges src t dt →
           pls.length ≤ dt + 1))) := by
  constructor
  · intro hA
    unfold find_nearest_node_of_type
    rw [hA]
  · intro src hA
    have hsrc : src ∈ (load_graph d).gNodes := load_src_mem hA
    have hC : ClosedEdges (load_graph d) := load_graph_closed d
    have hbody : find_nearest_node_of_type (load_graph d) A T =
        (if ((load_graph d).gNodes.filter
              (fun i => decide (dget (load_graph d).gTypes i = some T))).isEmpty
         then Except.ok none
         else
           match ((load_graph d).gNodes.filter
               (fun i => decide (dget (load_graph d).gTypes i = some T))).foldl
               (nearestFold (load_graph d) src) none with
           | none => Except.ok none
           | some best => do
             let target_label ← lookupLabel (load_graph d) best.1
             let path_labels ← mapLabels (load_graph d) best.2
             Except.ok (some (target_label, path_labels))) := by
      unfold find_nearest_node_of_type
      rw [hA]
    by_cases hemp : ((load_graph d).gNodes.filter
        (fun i => decide (dget (load_graph d).gTypes i = some T))).isEmpty
    · have hres : find_nearest_node_of_type (load_graph d) A T = Except.ok none := by
        rw [hbody, if_pos hemp]
      have hnoT : ∀ t, t ∈ (load_graph d).gNodes →
          dget (load_graph d).gTypes t ≠ some T := by
        intro t ht hty
        have hmem : t ∈ (load_graph d).gNodes.filter
            (fun i => decide (dget (load_graph d).gTypes i = some T)) :=
          List.mem_filter.mpr ⟨ht, by simp [hty]⟩
        rw [List.isEmpty_iff.mp hemp] at hmem
        simp at hmem
      constructor
      · rw [hres]
        constructor
        · rintro _ ⟨t, ht, hty, _⟩
          exact hnoT t ht hty
        · intro _
          rfl
      · intro lbl pls hcontra
        rw [hres] at hcontra
        simp at hcontra
    · have hinv := nearestFold_inv (load_graph d) src
        ((load_graph d).gNodes.filter
          (fun i => decide (dget (load_graph d).gTypes i = some T))) none []
        (Or.inl ⟨rfl, by intro t ht; simp at ht⟩)
      rw [List.nil_append] at hinv
      rcases hinv with ⟨hf, hall⟩ | ⟨bt, bp, hf, hbt, hsp, hmin⟩
      · have hres : find_nearest_node_of_type (load_graph d) A T = Except.ok none := by
          rw [hbody, if_neg hemp, hf]
        constructor
        · rw [hres]
          constructor
          · rintro _ ⟨t, ht, hty, hreach⟩
            have htmem : t ∈ (load_graph d).gNodes.filter
                (fun i => decide (dget (load_graph d).gTypes i = some T)) :=
              List.mem_filter.mpr ⟨ht, by simp [hty]⟩
            exact absurd hreach
              ((nx_shortest_path_none_iff hsrc hC).mp (hall t htmem))
          · intro _
            rfl
        · intro lbl pls hcontra
          rw [hres] at hcontra
          simp at hcontra
      · have hbtmem := List.mem_filter.mp hbt
        have hbtN : bt ∈ (load_graph d).gNodes := hbtmem.1
        have hbtT : dget (load_graph d).gTypes bt = some T := by
          have := hbtmem.2
          simpa using this
        rcases nx_shortest_path_some hsp with ⟨hwalk, _⟩
        rcases load_gNodes_labeled d h hbtN with ⟨lbl0, hlbl0⟩
        have hlook : lookupLabel (load_graph d) bt = Except.ok lbl0 := by
          unfold lookupLabel
          rw [hlbl0]
        have hvert : ∀ x ∈ bp, x ∈ (load_graph d).gNodes :=
          walk_mem_nodes hC bp src bt hwalk hsrc
        have hlab : ∀ x ∈ bp, (dget (load_graph d).id_to_label x).isSome := by
          intro x hx
          rcases load_gNodes_labeled d h (hvert x hx) with ⟨l0, hl0⟩
          rw [hl0]
          rfl
        have hmap := mapLabels_ok (load_graph d) bp hlab
        have hres : find_nearest_node_of_type (load_graph d) A T =
            Except.ok (some (lbl0,
              bp.map (fun x => (dget (load_graph d).id_to_label x).getD ""))) := by
          rw [hbody, if_neg hemp, hf]
          show (do
            let target_label ← lookupLabel (load_graph d) bt
            let path_labels ← mapLabels (load_graph d) bp
            Except.ok (some (target_label, path_labels))) = _
          rw [hlook, hmap]
          rfl
        constructor
        · rw [hres]
          constructor
          · intro hcontra
            simp at hcontra
          · intro hnone
            exact absurd ⟨bt, hbtN, hbtT, ⟨bp, hwalk⟩⟩ hnone
        · intro lbl pls heq
          rw [hres] at heq
          have hinj : lbl0 = lbl ∧
              bp.map (fun x => (dget (load_graph d).id_to_label x).getD "") = pls := by
            have h1 := heq
            simp at h1
            exact h1
          constructor
          · have hl2i : dget (load_graph d).label_to_id lbl0 = some bt :=
              (load_inverse_maps d h).mpr hlbl0
            unfold get_node_type
            rw [← hinj.1, hl2i]
            show (if bt ∈ (load_graph d).gNodes
              then Except.ok (dget (load_graph d).gTypes bt)
              else Except.error bt) = Except.ok (some T)
            rw [if_pos hbtN, hbtT]
          · intro t dt ht hty hdt
            have hreach : Reachable (load_graph d).gEdges src t := by
              rcases hdt.1 with ⟨p0, hp0, _⟩
              exact ⟨p0, hp0⟩
            rcases nx_shortest_path_of_reachable hsrc hC hreach with ⟨q, hq⟩
            rcases nx_shortest_path_some hq with ⟨hqwalk, hqdist⟩
            have hteq : dt = q.length - 1 := hopDistance_unique hdt hqdist
            have htmem : t ∈ (load_graph d).gNodes.filter
                (fun i => decide (dget (load_graph d).gTypes i = some T)) :=
              List.mem_filter.mpr ⟨ht, by simp [hty]⟩
            have hle := hmin t htmem q hq
            have hq1 : 1 ≤ q.length := by
              rcases hqwalk with ⟨hh, _, _⟩
              cases q with
              | nil => simp at hh
              | cons a r => simp
            have hlen : pls.length = bp.length := by
              rw [← hinj.2, List.length_map]
            omega

/-- C1 witness at the concrete graph. -/
theorem find_nearest_spec_w :
    WellFormed gdMain ∧
    ((dget (load_graph gdMain).label_to_id "LA" = none →
      find_nearest_node_of_type (load_graph gdMain) "LA" "hospital" = Except.ok none) ∧
     (∀ src, dget (load_graph gdMain).label_to_id "LA" = some src →
      ((find_nearest_node_of_type (load_graph gdMain) "LA" "hospital" = Except.ok none ↔
         ¬ ∃ t, t ∈ (load_graph gdMain).gNodes ∧
             dget (load_graph gdMain).gTypes t = some "hospital" ∧
             Reachable (load_graph gdMain).gEdges src t) ∧
       (∀ lbl pls, find_nearest_node_of_type (load_graph gdMain) "LA" "hospital" =
           Except.ok (some (lbl, pls)) →
         get_node_type (load_graph gdMain) lbl = Except.ok (some "hospital") ∧
         ∀ t dt, t ∈ (load_graph gdMain).gNodes →
           dget (load_graph gdMain).gTypes t = some "hospital" →
           HopDistance (load_graph gdMain).gEdges src t dt →
           pls.length ≤ dt + 1)))) :=
  ⟨by decide, find_nearest_spec gdMain (by decide) "LA" "hospital"⟩

/-- C9: when the source node's own stored type equals T, the source at
hop-distance zero always wins: `find_nearest_node_of_type(A, T)` returns
`(A, [A])`, not the nearest distinct node of type T. -/
theorem find_nearest_self (d : GraphDesc) (h : WellFormed d) (A T src : String)
    (hA : dget (load_graph d).label_to_id A = some src)
    (hT : dget (load_graph d).gTypes src = some T) :
    find_nearest_node_of_type (load_graph d) A T = Except.ok (some (A, [A])) := by
  have hsrc : src ∈ (load_graph d).gNodes := load_src_mem hA
  have hC : ClosedEdges (load_graph d) := load_graph_closed d
  have hbody : find_nearest_node_of_type (load_graph d) A T =
      (if ((load_graph d).gNodes.filter
            (fun i => decide (dget (load_graph d).gTypes i = some T))).isEmpty
       then Except.ok none
       else
         match ((load_graph d).gNodes.filter
             (fun i => decide (dget (load_graph d).gTypes i = some T))).foldl
             (nearestFold (load_graph d) src) none with
         | none => Except.ok none
         | some best => do
           let target_label ← lookupLabel (load_graph d) best.1
           let path_labels ← mapLabels (load_graph d) best.2
           Except.ok (some (target_label, path_labels))) := by
    unfold find_nearest_node_of_type
    rw [hA]
  have hsrcT : src ∈ (load_graph d).gNodes.filter
      (fun i => decide (dget (load_graph d).gTypes i = some T)) :=
    List.mem_filter.mpr ⟨hsrc, by simp [hT]⟩
  have hemp : ¬ ((load_graph d).gNodes.filter
      (fun i => decide (dget (load_graph d).gTypes i = some T))).isEmpty := by
    intro hcontra
    rw [List.isEmpty_iff.mp hcontra] at hsrcT
    simp at hsrcT
  have hself : nx_shortest_path (load_graph d) src src = some [src] :=
    nx_shortest_path_self (load_graph d) src
  have hinv := nearestFold_inv (load_graph d) src
    ((load_graph d).gNodes.filter
      (fun i => decide (dget (load_graph d).gTypes i = some T))) none []
    (Or.inl ⟨rfl, by intro t ht; simp at ht⟩)
  rw [List.nil_append] at hinv
  rcases hinv with ⟨_, hall⟩ | ⟨bt, bp, hf, _, hsp, hmin⟩
  · rw [hall src hsrcT] at hself
    cases hself
  · have hle := hmin src hsrcT [src] hself
    simp at hle
    rcases nx_shortest_path_some hsp with ⟨⟨hh, hl, _⟩, _⟩
    have hbp : bp = [src] ∧ bt = src := by
      cases bp with
      | nil => simp at hh
      | cons a r =>
        cases r with
        | nil =>
          simp at hh hl
          rw [hh] at hl ⊢
          exact ⟨rfl, hl.symm⟩
        | cons b r2 => simp at hle
    rcases hbp with ⟨hbp, hbt⟩
    rw [hbp, hbt] at hf
    have hi2l : dget (load_graph d).id_to_label src = some A :=
      (load_inverse_maps d h).mp hA
    have hlook : lookupLabel (load_graph d) src = Except.ok A := by
      unfold lookupLabel
      rw [hi2l]
    have hmap : mapLabels (load_graph d) [src] = Except.ok [A] := by
      rw [mapLabels_ok (load_graph d) [src]
        (fun x hx => by simp at hx; rw [hx, hi2l]; rfl)]
      simp [hi2l]
    rw [hbody, if_neg hemp, hf]
    show (do
      let target_label ← lookupLabel (load_graph d) src
      let path_labels ← mapLabels (load_graph d) [src]
      Except.ok (some (target_label, path_labels))) = _
    rw [hlook, hmap]
    rfl

/-- C9 witness: LB is itself a hospital, so the nearest hospital to LB is
LB at distance zero. -/
theorem find_nearest_self_w :
    WellFormed gdMain ∧
    dget (load_graph gdMain).label_to_id "LB" = some "B" ∧
    dget (load_graph gdMain).gTypes "B" = some "hospital" ∧
    find_nearest_node_of_type (load_graph gdMain) "LB" "hospital" =
      Except.ok (some ("LB", ["LB"])) :=
  ⟨by decide, by decide, by decide,
    find_nearest_self gdMain (by decide) "LB" "hospital" "B" (by decide) (by decide)⟩
